import Mathlib

/-!
Shallow embedding of the brainfuck interpreter (src/main.rs): the loop
resolver `generate_loop_lookup_table`, the pointer-move helpers, and the
fetch-decode-execute loop of `run`, together with proofs of the spec claims.

Rust `u8` arithmetic is embedded with debug-build semantics: overflow and
underflow of a cell, and any out-of-bounds index, are a panic, modelled by
an explicit `panic` outcome.  Fuel makes the interpreter loop total;
running out of fuel is reported separately from every real outcome.
-/

def MEMORY_SIZE : Nat := 256

inductive Error where
  | MismatchedBrackets (idx : Nat)
deriving DecidableEq, Repr

deriving instance DecidableEq for Except

/-- The single left-to-right scan inside `generate_loop_lookup_table`:
on `[` push the index, on `]` pop the matching open (error when the stack
is empty) and append the pair, ignore every other character. -/
def scan : List Char → Nat → List Nat → List (Nat × Nat) →
    Except Error (List Nat × List (Nat × Nat))
  | [], _, stack, lut => .ok (stack, lut)
  | c :: rest, i, stack, lut =>
    if c = '[' then
      scan rest (i + 1) (i :: stack) lut
    else if c = ']' then
      match stack with
      | [] => .error (.MismatchedBrackets i)
      | j :: tl => scan rest (i + 1) tl (lut ++ [(j, i)])
    else
      scan rest (i + 1) stack lut

/-- `generate_loop_lookup_table`: run the scan from index 0 with empty
stack and table; a non-empty final stack is an error at its top entry. -/
def generate_loop_lookup_table (source_code : List Char) :
    Except Error (List (Nat × Nat)) :=
  match scan source_code 0 [] [] with
  | .error e => .error e
  | .ok ([], lut) => .ok lut
  | .ok (j :: _, _) => .error (.MismatchedBrackets j)

def increment_memory_pointer (memory_pointer : Nat) : Nat :=
  if memory_pointer < MEMORY_SIZE then memory_pointer + 1 else 0

def decrement_memory_pointer (memory_pointer : Nat) : Nat :=
  if memory_pointer > 0 then memory_pointer - 1 else MEMORY_SIZE - 1

/-- Interpreter state: instruction pointer, memory pointer, the tape,
the remaining input lines (each a list of bytes as `read_line` returns
them) and the bytes printed so far. -/
structure State where
  ip : Nat
  mp : Nat
  memory : List Nat
  input : List (List Nat)
  output : List Nat
deriving DecidableEq, Repr

inductive StepResult where
  | ok (s : State)
  | err (e : Error)
  | panic
deriving DecidableEq, Repr

/-- One iteration of the `while` loop in `run`, for `s.ip < src.length`:
dispatch on the current character.  `panic` models a Rust runtime panic
(u8 overflow or underflow in a debug build, an out-of-bounds tape index,
or `as_bytes()[0]` on an empty input line). -/
def step (src : List Char) (lut : List (Nat × Nat)) (s : State) : StepResult :=
  match src.get? s.ip with
  | none => .panic
  | some c =>
    if c = '>' then
      .ok { s with mp := increment_memory_pointer s.mp, ip := s.ip + 1 }
    else if c = '<' then
      .ok { s with mp := decrement_memory_pointer s.mp, ip := s.ip + 1 }
    else if c = '+' then
      match s.memory.get? s.mp with
      | none => .panic
      | some v =>
        if v + 1 < 256 then
          .ok { s with memory := s.memory.set s.mp (v + 1), ip := s.ip + 1 }
        else .panic
    else if c = '-' then
      match s.memory.get? s.mp with
      | none => .panic
      | some v =>
        if 0 < v then
          .ok { s with memory := s.memory.set s.mp (v - 1), ip := s.ip + 1 }
        else .panic
    else if c = '.' then
      match s.memory.get? s.mp with
      | none => .panic
      | some v => .ok { s with output := s.output ++ [v], ip := s.ip + 1 }
    else if c = ',' then
      match (s.input.headD []).get? 0 with
      | none => .panic
      | some b =>
        match s.memory.get? s.mp with
        | none => .panic
        | some _ =>
          .ok { s with memory := s.memory.set s.mp b,
                       input := s.input.tail, ip := s.ip + 1 }
    else if c = '[' then
      match s.memory.get? s.mp with
      | none => .panic
      | some v =>
        if v = 0 then
          match lut.find? (fun pr => pr.1 == s.ip) with
          | none => .err (.MismatchedBrackets s.ip)
          | some pr => .ok { s with ip := pr.2 + 1 }
        else .ok { s with ip := s.ip + 1 }
    else if c = ']' then
      match s.memory.get? s.mp with
      | none => .panic
      | some v =>
        if v = 0 then .ok { s with ip := s.ip + 1 }
        else
          match lut.find? (fun pr => pr.2 == s.ip) with
          | none => .err (.MismatchedBrackets s.ip)
          | some pr => .ok { s with ip := pr.1 + 1 }
    else .ok { s with ip := s.ip + 1 }

inductive RunRes where
  | done (s : State)
  | err (e : Error)
  | panic
  | fuelOut (s : State)
deriving DecidableEq, Repr

/-- The `while source_pointer < source_code.len()` loop of `run`, made
total with fuel. -/
def runFuel (src : List Char) (lut : List (Nat × Nat)) :
    Nat → State → RunRes
  | 0, s => .fuelOut s
  | Nat.succ fuel, s =>
    if s.ip < src.length then
      match step src lut s with
      | .ok t => runFuel src lut fuel t
      | .err e => .err e
      | .panic => .panic
    else .done s

def initState (input : List (List Nat)) : State :=
  { ip := 0, mp := 0, memory := List.replicate MEMORY_SIZE 0,
    input := input, output := [] }

/-- `run`: resolve the loops, then execute from the all-zero state. -/
def run (src : List Char) (input : List (List Nat)) (fuel : Nat) : RunRes :=
  match generate_loop_lookup_table src with
  | .error e => .err e
  | .ok lut => runFuel src lut fuel (initState input)

def RunRes.isMismatch : RunRes → Bool
  | .err _ => true
  | _ => false

def RunRes.isDone : RunRes → Bool
  | .done _ => true
  | _ => false

/-- Tape cell `i` of a completed run, when the run completed. -/
def resultCell (r : RunRes) (i : Nat) : Option Nat :=
  match r with
  | .done s => s.memory.get? i
  | _ => none

/-- Both coordinates of every pair of the table, in table order. -/
def pairPositions : List (Nat × Nat) → List Nat
  | [] => []
  | pr :: rest => pr.1 :: pr.2 :: pairPositions rest

/-- The eight-armed `match` of `sanitize_input`. -/
def is_bf_symbol (c : Char) : Bool :=
  c = '>' || c = '<' || c = '+' || c = '-' ||
  c = '.' || c = ',' || c = '[' || c = ']'

/-- `sanitize_input`: push every recognized character onto the
accumulator, drop the rest. -/
def sanitize_input (input : List Char) : List Char :=
  input.foldl (fun acc c => if is_bf_symbol c then acc ++ [c] else acc) []

theorem sanitize_foldl (s : List Char) :
    ∀ acc, s.foldl (fun acc c => if is_bf_symbol c then acc ++ [c] else acc) acc
      = acc ++ s.filter is_bf_symbol := by
  induction s with
  | nil => intro acc; simp
  | cons c rest ih =>
    intro acc
    by_cases hc : is_bf_symbol c = true
    · simp [List.foldl_cons, hc, ih, List.filter_cons, List.append_assoc]
    · simp [List.foldl_cons, hc, ih, List.filter_cons]

/-- Claim C10: `sanitize_input` keeps exactly the occurrences of the eight
recognized symbols of its input, in their original relative order (it is
the filter by `is_bf_symbol`), and it is idempotent. -/
theorem sanitize_input_filter_and_idempotent (s : List Char) :
    sanitize_input s = s.filter is_bf_symbol ∧
    sanitize_input (sanitize_input s) = sanitize_input s := by
  have h : ∀ t : List Char, sanitize_input t = t.filter is_bf_symbol := by
    intro t
    simpa using sanitize_foldl t []
  refine ⟨h s, ?_⟩
  simp only [h]
  apply List.filter_eq_self.mpr
  intro a ha
  exact (List.mem_filter.mp ha).2

set_option maxRecDepth 100000 in
/-- Claim C1 (code-bug evidence): from data pointer 0 one `<` does yield
MEMORY_SIZE − 1, but from data pointer MEMORY_SIZE − 1 one `>` yields
MEMORY_SIZE = 256, not 0, and the very next cell access panics: the run
of 256 `>` followed by `+` is a runtime panic, not a wrap to cell 0. -/
theorem pointer_wrap_divergence :
    decrement_memory_pointer 0 = MEMORY_SIZE - 1 ∧
    increment_memory_pointer (MEMORY_SIZE - 1) = MEMORY_SIZE ∧
    increment_memory_pointer (MEMORY_SIZE - 1) ≠ 0 ∧
    run (List.replicate MEMORY_SIZE '>' ++ ['+']) [] 300 = .panic := by
  decide

set_option maxRecDepth 100000 in
/-- Claim C2 (code-bug evidence): a `+` below 255 increments the cell,
but `+` on a cell holding 255 aborts the run (u8 overflow panic), as does
`-` on a cell holding 0: 256 consecutive `+` panic instead of wrapping
to 0, and a single `-` from the all-zero tape panics instead of giving
255. -/
theorem cell_overflow_divergence :
    resultCell (run ['+'] [] 10) 0 = some 1 ∧
    run (List.replicate 256 '+') [] 300 = .panic ∧
    run ['-'] [] 10 = .panic := by
  decide

/-- Claim C8: running `"+++[>+<-]"` from the all-zero state terminates,
with tape cell 1 holding 3 and tape cell 0 holding 0. -/
theorem copy_loop_result :
    (run ['+', '+', '+', '[', '>', '+', '<', '-', ']'] [] 100).isDone = true ∧
    resultCell (run ['+', '+', '+', '[', '>', '+', '<', '-', ']'] [] 100) 1
      = some 3 ∧
    resultCell (run ['+', '+', '+', '[', '>', '+', '<', '-', ']'] [] 100) 0
      = some 0 := by
  decide

/-- Claim C9 (code-bug evidence): `,` does consume the first byte of the
next input line into the current cell, but when no input is available the
run panics (`as_bytes()[0]` on the empty buffer) instead of treating the
situation as end-of-input. -/
theorem comma_input_divergence :
    resultCell (run [','] [[65, 10]] 10) 0 = some 65 ∧
    run [','] [] 10 = .panic := by
  decide

theorem scan_append (l₂ : List Char) :
    ∀ (l₁ : List Char) (i : Nat) (stack : List Nat) (lut : List (Nat × Nat))
      (st₁ : List Nat) (lut₁ : List (Nat × Nat)),
      scan l₁ i stack lut = .ok (st₁, lut₁) →
      scan (l₁ ++ l₂) i stack lut = scan l₂ (i + l₁.length) st₁ lut₁ := by
  intro l₁
  induction l₁ with
  | nil =>
    intro i stack lut st₁ lut₁ h
    simp only [scan, Except.ok.injEq, Prod.mk.injEq] at h
    obtain ⟨h1, h2⟩ := h
    subst h1; subst h2
    simp
  | cons c rest ih =>
    intro i stack lut st₁ lut₁ h
    simp only [scan, List.cons_append, List.length_cons] at h ⊢
    by_cases hc : c = '['
    · rw [if_pos hc] at h ⊢
      have e : i + (rest.length + 1) = i + 1 + rest.length := by omega
      rw [e]
      exact ih _ _ _ _ _ h
    · rw [if_neg hc] at h ⊢
      by_cases hc2 : c = ']'
      · rw [if_pos hc2] at h ⊢
        cases stack with
        | nil => cases h
        | cons j tl =>
          have e : i + (rest.length + 1) = i + 1 + rest.length := by omega
          rw [e]
          exact ih _ _ _ _ _ h
      · rw [if_neg hc2] at h ⊢
        have e : i + (rest.length + 1) = i + 1 + rest.length := by omega
        rw [e]
        exact ih _ _ _ _ _ h

theorem scan_lut_mono :
    ∀ (l : List Char) (i : Nat) (stack : List Nat) (lut : List (Nat × Nat))
      (st' : List Nat) (lut' : List (Nat × Nat)),
      scan l i stack lut = .ok (st', lut') →
      ∀ pr ∈ lut, pr ∈ lut' := by
  intro l
  induction l with
  | nil =>
    intro i stack lut st' lut' h pr hpr
    simp only [scan, Except.ok.injEq, Prod.mk.injEq] at h
    exact h.2 ▸ hpr
  | cons c rest ih =>
    intro i stack lut st' lut' h pr hpr
    simp only [scan] at h
    by_cases hc : c = '['
    · rw [if_pos hc] at h
      exact ih _ _ _ _ _ h pr hpr
    · rw [if_neg hc] at h
      by_cases hc2 : c = ']'
      · rw [if_pos hc2] at h
        cases stack with
        | nil => cases h
        | cons j tl =>
          exact ih _ _ _ _ _ h pr (List.mem_append_left _ hpr)
      · rw [if_neg hc2] at h
        exact ih _ _ _ _ _ h pr hpr

theorem scan_stack_flow :
    ∀ (l : List Char) (i : Nat) (stack : List Nat) (lut : List (Nat × Nat))
      (st' : List Nat) (lut' : List (Nat × Nat)),
      scan l i stack lut = .ok (st', lut') →
      ∀ p ∈ stack, p ∈ st' ∨ ∃ j, (p, j) ∈ lut' := by
  intro l
  induction l with
  | nil =>
    intro i stack lut st' lut' h p hp
    simp only [scan, Except.ok.injEq, Prod.mk.injEq] at h
    exact Or.inl (h.1 ▸ hp)
  | cons c rest ih =>
    intro i stack lut st' lut' h p hp
    simp only [scan] at h
    by_cases hc : c = '['
    · rw [if_pos hc] at h
      exact ih _ _ _ _ _ h p (List.mem_cons_of_mem _ hp)
    · rw [if_neg hc] at h
      by_cases hc2 : c = ']'
      · rw [if_pos hc2] at h
        cases stack with
        | nil => cases h
        | cons j tl =>
          rcases List.mem_cons.mp hp with rfl | hp2
          · refine Or.inr ⟨i, ?_⟩
            exact scan_lut_mono rest _ _ _ _ _ h (p, i)
              (List.mem_append_right _ (List.mem_singleton.mpr rfl))
          · exact ih _ _ _ _ _ h p hp2
      · rw [if_neg hc2] at h
        exact ih _ _ _ _ _ h p hp

theorem scan_count :
    ∀ (l : List Char) (i : Nat) (stack : List Nat) (lut : List (Nat × Nat))
      (st' : List Nat) (lut' : List (Nat × Nat)),
      scan l i stack lut = .ok (st', lut') →
      lut'.length + st'.length = lut.length + stack.length + l.count '[' := by
  intro l
  induction l with
  | nil =>
    intro i stack lut st' lut' h
    simp only [scan, Except.ok.injEq, Prod.mk.injEq] at h
    obtain ⟨h1, h2⟩ := h
    subst h1; subst h2
    simp
  | cons c rest ih =>
    intro i stack lut st' lut' h
    simp only [scan] at h
    by_cases hc : c = '['
    · rw [if_pos hc] at h
      have := ih _ _ _ _ _ h
      simp only [List.length_cons] at this
      simp only [List.count_cons, hc]
      simp only [beq_self_eq_true, if_true]
      omega
    · rw [if_neg hc] at h
      have hcount : (c :: rest).count '[' = rest.count '[' := by
        simp [List.count_cons, hc]
      by_cases hc2 : c = ']'
      · rw [if_pos hc2] at h
        cases stack with
        | nil => cases h
        | cons j tl =>
          have := ih _ _ _ _ _ h
          simp only [List.length_append, List.length_cons,
            List.length_nil] at this ⊢
          rw [hcount]
          omega
      · rw [if_neg hc2] at h
        have := ih _ _ _ _ _ h
        rw [hcount]
        omega

theorem pairPositions_append (l₁ l₂ : List (Nat × Nat)) :
    pairPositions (l₁ ++ l₂) = pairPositions l₁ ++ pairPositions l₂ := by
  induction l₁ with
  | nil => simp [pairPositions]
  | cons pr rest ih => simp [pairPositions, ih]

theorem scan_nodup :
    ∀ (l : List Char) (i : Nat) (stack : List Nat) (lut : List (Nat × Nat))
      (st' : List Nat) (lut' : List (Nat × Nat)),
      scan l i stack lut = .ok (st', lut') →
      (∀ p ∈ pairPositions lut ++ stack, p < i) →
      (pairPositions lut ++ stack).Nodup →
      (pairPositions lut' ++ st').Nodup := by
  intro l
  induction l with
  | nil =>
    intro i stack lut st' lut' h hb hn
    simp only [scan, Except.ok.injEq, Prod.mk.injEq] at h
    obtain ⟨h1, h2⟩ := h
    subst h1; subst h2
    exact hn
  | cons c rest ih =>
    intro i stack lut st' lut' h hb hn
    simp only [scan] at h
    by_cases hc : c = '['
    · rw [if_pos hc] at h
      refine ih _ _ _ _ _ h ?_ ?_
      · intro p hp
        rcases List.mem_append.mp hp with h1 | h2
        · exact Nat.lt_succ_of_lt (hb p (List.mem_append_left _ h1))
        · rcases List.mem_cons.mp h2 with rfl | h3
          · exact Nat.lt_succ_self p
          · exact Nat.lt_succ_of_lt (hb p (List.mem_append_right _ h3))
      · have hni : i ∉ pairPositions lut ++ stack :=
          fun hmem => absurd (hb i hmem) (Nat.lt_irrefl i)
        exact (List.perm_middle).symm.nodup (List.nodup_cons.mpr ⟨hni, hn⟩)
    · rw [if_neg hc] at h
      by_cases hc2 : c = ']'
      · rw [if_pos hc2] at h
        cases stack with
        | nil => cases h
        | cons j tl =>
          refine ih _ _ _ _ _ h ?_ ?_
          · intro p hp
            rw [pairPositions_append] at hp
            rcases List.mem_append.mp hp with h1 | h2
            · rcases List.mem_append.mp h1 with h3 | h4
              · exact Nat.lt_succ_of_lt (hb p (List.mem_append_left _ h3))
              · simp only [pairPositions, List.mem_cons, List.mem_singleton,
                  List.not_mem_nil, or_false] at h4
                rcases h4 with rfl | rfl
                · exact Nat.lt_succ_of_lt
                    (hb p (List.mem_append_right _ (List.mem_cons_self _ _)))
                · exact Nat.lt_succ_self p
            · exact Nat.lt_succ_of_lt
                (hb p (List.mem_append_right _ (List.mem_cons_of_mem _ h2)))
          · have hni : i ∉ pairPositions lut ++ j :: tl :=
              fun hmem => absurd (hb i hmem) (Nat.lt_irrefl i)
            have hcons : (i :: (pairPositions lut ++ j :: tl)).Nodup :=
              List.nodup_cons.mpr ⟨hni, hn⟩
            have hperm :
                (i :: (pairPositions lut ++ j :: tl)).Perm
                  (pairPositions (lut ++ [(j, i)]) ++ tl) := by
              have hm := @List.perm_middle Nat i (pairPositions lut ++ [j]) tl
              have e1 : pairPositions (lut ++ [(j, i)]) ++ tl
                  = (pairPositions lut ++ [j]) ++ i :: tl := by
                simp [pairPositions_append, pairPositions, List.append_assoc]
              have e2 : (pairPositions lut ++ [j]) ++ tl
                  = pairPositions lut ++ j :: tl := by
                simp [List.append_assoc]
              rw [e1]
              rw [← e2]
              exact hm.symm
            exact hperm.nodup hcons
      · rw [if_neg hc2] at h
        exact ih _ _ _ _ _ h (fun p hp => Nat.lt_succ_of_lt (hb p hp)) hn

theorem scan_stack_shape :
    ∀ (l : List Char) (i : Nat) (stack : List Nat) (lut : List (Nat × Nat))
      (st' : List Nat) (lut' : List (Nat × Nat)),
      scan l i stack lut = .ok (st', lut') →
      (∀ p ∈ stack, p < i) →
      List.Pairwise (fun a b => b < a) stack →
      List.Pairwise (fun a b => b < a) st' ∧
      (∀ p ∈ st', p ∈ stack ∨ (i ≤ p ∧ l.get? (p - i) = some '[')) := by
  intro l
  induction l with
  | nil =>
    intro i stack lut st' lut' h hb hpw
    simp only [scan, Except.ok.injEq, Prod.mk.injEq] at h
    obtain ⟨h1, h2⟩ := h
    subst h1
    exact ⟨hpw, fun p hp => Or.inl hp⟩
  | cons c rest ih =>
    intro i stack lut st' lut' h hb hpw
    simp only [scan] at h
    by_cases hc : c = '['
    · rw [if_pos hc] at h
      have hres := ih _ _ _ _ _ h
        (by
          intro p hp
          rcases List.mem_cons.mp hp with rfl | hp2
          · exact Nat.lt_succ_self p
          · exact Nat.lt_succ_of_lt (hb p hp2))
        (List.pairwise_cons.mpr ⟨fun b hbmem => hb b hbmem, hpw⟩)
      refine ⟨hres.1, ?_⟩
      intro p hp
      rcases hres.2 p hp with hmem | ⟨hle, hget⟩
      · rcases List.mem_cons.mp hmem with rfl | hp2
        · refine Or.inr ⟨Nat.le_refl p, ?_⟩
          simp [hc]
        · exact Or.inl hp2
      · refine Or.inr ⟨Nat.le_of_succ_le hle, ?_⟩
        have e : p - i = (p - (i + 1)) + 1 := by omega
        rw [e, List.get?_cons_succ]
        exact hget
    · rw [if_neg hc] at h
      by_cases hc2 : c = ']'
      · rw [if_pos hc2] at h
        cases stack with
        | nil => cases h
        | cons j tl =>
          have hres := ih _ _ _ _ _ h
            (fun p hp => Nat.lt_succ_of_lt (hb p (List.mem_cons_of_mem _ hp)))
            (List.pairwise_cons.mp hpw).2
          refine ⟨hres.1, ?_⟩
          intro p hp
          rcases hres.2 p hp with hmem | ⟨hle, hget⟩
          · exact Or.inl (List.mem_cons_of_mem _ hmem)
          · refine Or.inr ⟨Nat.le_of_succ_le hle, ?_⟩
            have e : p - i = (p - (i + 1)) + 1 := by omega
            rw [e, List.get?_cons_succ]
            exact hget
      · rw [if_neg hc2] at h
        have hres := ih _ _ _ _ _ h
          (fun p hp => Nat.lt_succ_of_lt (hb p hp)) hpw
        refine ⟨hres.1, ?_⟩
        intro p hp
        rcases hres.2 p hp with hmem | ⟨hle, hget⟩
        · exact Or.inl hmem
        · refine Or.inr ⟨Nat.le_of_succ_le hle, ?_⟩
          have e : p - i = (p - (i + 1)) + 1 := by omega
          rw [e, List.get?_cons_succ]
          exact hget

theorem scan_cover :
    ∀ (l : List Char) (i : Nat) (stack : List Nat) (lut : List (Nat × Nat))
      (st' : List Nat) (lut' : List (Nat × Nat)),
      scan l i stack lut = .ok (st', lut') →
      ∀ k c, l.get? k = some c →
        (c = '[' → (i + k) ∈ st' ∨ ∃ j, (i + k, j) ∈ lut') ∧
        (c = ']' → ∃ j, (j, i + k) ∈ lut') := by
  intro l
  induction l with
  | nil =>
    intro i stack lut st' lut' h k c hk
    simp at hk
  | cons c0 rest ih =>
    intro i stack lut st' lut' h k c hk
    simp only [scan] at h
    by_cases hc : c0 = '['
    · rw [if_pos hc] at h
      cases k with
      | zero =>
        simp only [List.get?_cons_zero, Option.some.injEq] at hk
        subst hk
        constructor
        · intro _
          have := scan_stack_flow rest (i + 1) (i :: stack) lut st' lut' h i
            (List.mem_cons_self _ _)
          simpa using this
        · intro hcc
          rw [hc] at hcc
          exact absurd hcc (by decide)
      | succ k2 =>
        have hres := ih _ _ _ _ _ h k2 c (by simpa using hk)
        have e : i + 1 + k2 = i + (k2 + 1) := by omega
        constructor
        · intro hcc
          have h2 := hres.1 hcc
          rw [e] at h2
          exact h2
        · intro hcc
          have h2 := hres.2 hcc
          rw [e] at h2
          exact h2
    · rw [if_neg hc] at h
      by_cases hc2 : c0 = ']'
      · rw [if_pos hc2] at h
        cases stack with
        | nil => cases h
        | cons j tl =>
          cases k with
          | zero =>
            simp only [List.get?_cons_zero, Option.some.injEq] at hk
            subst hk
            constructor
            · intro hcc
              rw [hc2] at hcc
              exact absurd hcc (by decide)
            · intro _
              refine ⟨j, ?_⟩
              have hmem : (j, i) ∈ lut ++ [(j, i)] :=
                List.mem_append_right _ (List.mem_singleton.mpr rfl)
              have := scan_lut_mono rest _ _ _ _ _ h (j, i) hmem
              simpa using this
          | succ k2 =>
            have hres := ih _ _ _ _ _ h k2 c (by simpa using hk)
            have e : i + 1 + k2 = i + (k2 + 1) := by omega
            constructor
            · intro hcc
              have h2 := hres.1 hcc
              rw [e] at h2
              exact h2
            · intro hcc
              have h2 := hres.2 hcc
              rw [e] at h2
              exact h2
      · rw [if_neg hc2] at h
        cases k with
        | zero =>
          simp only [List.get?_cons_zero, Option.some.injEq] at hk
          subst hk
          constructor
          · intro hcc
            exact absurd hcc hc
          · intro hcc
            exact absurd hcc hc2
        | succ k2 =>
          have hres := ih _ _ _ _ _ h k2 c (by simpa using hk)
          have e : i + 1 + k2 = i + (k2 + 1) := by omega
          constructor
          · intro hcc
            have h2 := hres.1 hcc
            rw [e] at h2
            exact h2
          · intro hcc
            have h2 := hres.2 hcc
            rw [e] at h2
            exact h2

theorem generate_ok_scan (src : List Char) (lut : List (Nat × Nat))
    (h : generate_loop_lookup_table src = .ok lut) :
    scan src 0 [] [] = .ok ([], lut) := by
  unfold generate_loop_lookup_table at h
  split at h
  · cases h
  · next lut2 heq =>
    injection h with h2
    subst h2
    exact heq
  · cases h

/-- Claim C4: when the scan of a program completes with a non-empty stack
of pending open brackets, resolution fails with `MismatchedBrackets` at
the stack top `q`: the most recently pushed still-unclosed open bracket —
`q` is an open-bracket position and lies to the right of every other
pending entry (it is the innermost, not the first open of the program). -/
theorem unclosed_open_fails_at_innermost (src : List Char) (q : Nat)
    (tl : List Nat) (lut : List (Nat × Nat))
    (h : scan src 0 [] [] = .ok (q :: tl, lut)) :
    generate_loop_lookup_table src = .error (.MismatchedBrackets q) ∧
    src.get? q = some '[' ∧
    tl.all (fun p => p < q) = true := by
  have hs := scan_stack_shape src 0 [] [] (q :: tl) lut h
    (by intro p hp; cases hp) List.Pairwise.nil
  obtain ⟨hpw, hmem⟩ := hs
  refine ⟨?_, ?_, ?_⟩
  · unfold generate_loop_lookup_table
    rw [h]
  · rcases hmem q (List.mem_cons_self _ _) with hq | ⟨_, hq⟩
    · cases hq
    · simpa using hq
  · rw [List.all_eq_true]
    intro p hp
    have := (List.pairwise_cons.mp hpw).1 p hp
    simpa using this

/-- Claim C4 witness: for the program `"[[]"` resolution fails with
position 0. -/
theorem unclosed_open_fails_at_innermost_witness :
    generate_loop_lookup_table ['[', '[', ']'] = .error (.MismatchedBrackets 0) ∧
    List.get? ['[', '[', ']'] 0 = some '[' ∧
    ([] : List Nat).all (fun p => p < 0) = true :=
  unclosed_open_fails_at_innermost ['[', '[', ']'] 0 [] [(1, 2)] (by decide)

/-- Claim C5: a `]` scanned while the pending-open stack is empty makes
resolution fail at that closing position, eagerly: whatever follows the
orphan close, the result is `MismatchedBrackets` at its index. -/
theorem orphan_close_fails_eagerly (pre rest : List Char)
    (lut : List (Nat × Nat)) (h : scan pre 0 [] [] = .ok ([], lut)) :
    generate_loop_lookup_table (pre ++ ']' :: rest)
      = .error (.MismatchedBrackets pre.length) := by
  unfold generate_loop_lookup_table
  rw [scan_append ( ']' :: rest) pre 0 [] [] [] lut h]
  simp [scan]

/-- Claim C5 witness: for the program `"[]]"` resolution fails with
position 2. -/
theorem orphan_close_fails_eagerly_witness :
    generate_loop_lookup_table ['[', ']', ']']
      = .error (.MismatchedBrackets 2) :=
  orphan_close_fails_eagerly ['[', ']'] [] [(0, 1)] (by decide)

/-- Claim C7: for every program on which resolution succeeds, the jump
table has exactly one pair per `[` of the program, and no position occurs
twice among the pairs (both coordinates of all pairs are distinct). -/
theorem lut_count_and_positions_nodup (src : List Char)
    (lut : List (Nat × Nat)) (h : generate_loop_lookup_table src = .ok lut) :
    lut.length = src.count '[' ∧ (pairPositions lut).Nodup := by
  have hs := generate_ok_scan src lut h
  constructor
  · have := scan_count src 0 [] [] [] lut hs
    simpa using this
  · have := scan_nodup src 0 [] [] [] lut hs
      (by intro p hp; simp [pairPositions] at hp)
      (by simp [pairPositions])
    simpa using this

/-- Claim C7 witness: for `"[[]]"` the table is `[(1,2),(0,3)]`: two
pairs for two `[` symbols, and the four positions are pairwise distinct. -/
theorem lut_count_and_positions_nodup_witness :
    ([((1 : Nat), (2 : Nat)), (0, 3)]).length
      = List.count '[' ['[', '[', ']', ']'] ∧
    (pairPositions [(1, 2), (0, 3)]).Nodup :=
  lut_count_and_positions_nodup ['[', '[', ']', ']'] [(1, 2), (0, 3)]
    (by decide)

/-- Claim C3: every successful execution step leaves the instruction
pointer one past something: one past the executed position when no jump
was taken, and one past the matching bracket found in the jump table when
a jump was taken on `[` or `]` — never on the matching bracket itself. -/
theorem ip_advances_after_every_step (src : List Char)
    (lut : List (Nat × Nat)) (s t : State) (h : step src lut s = .ok t) :
    t.ip = s.ip + 1 ∨
    (src.get? s.ip = some '[' ∧
      (lut.find? (fun pr => pr.1 == s.ip)).map (fun pr => pr.2 + 1)
        = some t.ip) ∨
    (src.get? s.ip = some ']' ∧
      (lut.find? (fun pr => pr.2 == s.ip)).map (fun pr => pr.1 + 1)
        = some t.ip) := by
  unfold step at h
  split at h
  next => cases h
  next c hg =>
    by_cases h1 : c = '>'
    · rw [if_pos h1] at h
      injection h with h
      subst h
      exact Or.inl rfl
    rw [if_neg h1] at h
    by_cases h2 : c = '<'
    · rw [if_pos h2] at h
      injection h with h
      subst h
      exact Or.inl rfl
    rw [if_neg h2] at h
    by_cases h3 : c = '+'
    · rw [if_pos h3] at h
      split at h
      next => cases h
      next v hv =>
        split at h
        · injection h with h
          subst h
          exact Or.inl rfl
        · cases h
    rw [if_neg h3] at h
    by_cases h4 : c = '-'
    · rw [if_pos h4] at h
      split at h
      next => cases h
      next v hv =>
        split at h
        · injection h with h
          subst h
          exact Or.inl rfl
        · cases h
    rw [if_neg h4] at h
    by_cases h5 : c = '.'
    · rw [if_pos h5] at h
      split at h
      next => cases h
      next v hv =>
        injection h with h
        subst h
        exact Or.inl rfl
    rw [if_neg h5] at h
    by_cases h6 : c = ','
    · rw [if_pos h6] at h
      split at h
      next => cases h
      next b hb2 =>
        split at h
        next => cases h
        next v hv =>
          injection h with h
          subst h
          exact Or.inl rfl
    rw [if_neg h6] at h
    by_cases h7 : c = '['
    · rw [if_pos h7] at h
      split at h
      next => cases h
      next v hv =>
        split at h
        · split at h
          next => cases h
          next pr hf =>
            injection h with h
            subst h
            refine Or.inr (Or.inl ⟨by rw [hg, h7], ?_⟩)
            rw [hf]
            rfl
        · injection h with h
          subst h
          exact Or.inl rfl
    rw [if_neg h7] at h
    by_cases h8 : c = ']'
    · rw [if_pos h8] at h
      split at h
      next => cases h
      next v hv =>
        split at h
        · injection h with h
          subst h
          exact Or.inl rfl
        · split at h
          next => cases h
          next pr hf =>
            injection h with h
            subst h
            refine Or.inr (Or.inr ⟨by rw [hg, h8], ?_⟩)
            rw [hf]
            rfl
    rw [if_neg h8] at h
    injection h with h
    subst h
    exact Or.inl rfl

/-- The state just before a taken `[` jump in the program `"[]"`. -/
def sampleJump : State := initState []

/-- The state just after that jump: one past the matching `]` at 1. -/
def sampleJumpResult : State := { sampleJump with ip := 2 }

set_option maxRecDepth 100000 in
/-- Claim C3 witness: in `"[]"` with table `[(0,1)]` and a zero cell, the
step at the `[` jumps and lands at position 2 = 1 + 1, one past the
matching `]`. -/
theorem ip_advances_after_every_step_witness :
    sampleJumpResult.ip = sampleJump.ip + 1 ∨
    (List.get? ['[', ']'] sampleJump.ip = some '[' ∧
      (List.find? (fun pr => pr.1 == sampleJump.ip)
          [((0 : Nat), (1 : Nat))]).map (fun pr => pr.2 + 1)
        = some sampleJumpResult.ip) ∨
    (List.get? ['[', ']'] sampleJump.ip = some ']' ∧
      (List.find? (fun pr => pr.2 == sampleJump.ip)
          [((0 : Nat), (1 : Nat))]).map (fun pr => pr.1 + 1)
        = some sampleJumpResult.ip) :=
  ip_advances_after_every_step ['[', ']'] [(0, 1)] sampleJump
    sampleJumpResult (by decide)

theorem generate_cover (src : List Char) (lut : List (Nat × Nat))
    (h : generate_loop_lookup_table src = .ok lut) :
    ∀ p c, src.get? p = some c →
      (c = '[' → ∃ j, (p, j) ∈ lut) ∧ (c = ']' → ∃ j, (j, p) ∈ lut) := by
  have hs := generate_ok_scan src lut h
  intro p c hp
  have hres := scan_cover src 0 [] [] [] lut hs p c hp
  constructor
  · intro hc
    rcases hres.1 hc with h1 | h2
    · cases h1
    · simpa using h2
  · intro hc
    simpa using hres.2 hc

theorem step_no_mismatch (src : List Char) (lut : List (Nat × Nat))
    (hcov : ∀ p c, src.get? p = some c →
      (c = '[' → ∃ j, (p, j) ∈ lut) ∧ (c = ']' → ∃ j, (j, p) ∈ lut))
    (s : State) (e : Error) : step src lut s ≠ .err e := by
  intro h
  unfold step at h
  split at h
  next => cases h
  next c hg =>
    by_cases h1 : c = '>'
    · rw [if_pos h1] at h; cases h
    rw [if_neg h1] at h
    by_cases h2 : c = '<'
    · rw [if_pos h2] at h; cases h
    rw [if_neg h2] at h
    by_cases h3 : c = '+'
    · rw [if_pos h3] at h
      split at h
      next => cases h
      next v hv =>
        split at h
        · cases h
        · cases h
    rw [if_neg h3] at h
    by_cases h4 : c = '-'
    · rw [if_pos h4] at h
      split at h
      next => cases h
      next v hv =>
        split at h
        · cases h
        · cases h
    rw [if_neg h4] at h
    by_cases h5 : c = '.'
    · rw [if_pos h5] at h
      split at h
      next => cases h
      next v hv => cases h
    rw [if_neg h5] at h
    by_cases h6 : c = ','
    · rw [if_pos h6] at h
      split at h
      next => cases h
      next b hb2 =>
        split at h
        next => cases h
        next v hv => cases h
    rw [if_neg h6] at h
    by_cases h7 : c = '['
    · rw [if_pos h7] at h
      split at h
      next => cases h
      next v hv =>
        split at h
        · split at h
          next hf =>
            obtain ⟨j, hj⟩ := (hcov s.ip '[' (by rw [hg, h7])).1 rfl
            have := List.find?_eq_none.mp hf (s.ip, j) hj
            simp at this
          next pr hf => cases h
        · cases h
    rw [if_neg h7] at h
    by_cases h8 : c = ']'
    · rw [if_pos h8] at h
      split at h
      next => cases h
      next v hv =>
        split at h
        · cases h
        · split at h
          next hf =>
            obtain ⟨j, hj⟩ := (hcov s.ip ']' (by rw [hg, h8])).2 rfl
            have := List.find?_eq_none.mp hf (j, s.ip) hj
            simp at this
          next pr hf => cases h
    rw [if_neg h8] at h
    cases h

/-- Claim C6: once `generate_loop_lookup_table` has succeeded on a
program, the execution loop never produces `MismatchedBrackets`: from any
state whatsoever (any tape, pointers and input) and with any fuel, the
jump-table lookups on `[` and `]` cannot miss. -/
theorem execution_never_mismatched (src : List Char) (lut : List (Nat × Nat))
    (h : generate_loop_lookup_table src = .ok lut) (fuel : Nat) (s : State) :
    (runFuel src lut fuel s).isMismatch = false := by
  have hcov := generate_cover src lut h
  induction fuel generalizing s with
  | zero => rfl
  | succ n ih =>
    unfold runFuel
    split
    · split
      next t ht => exact ih t
      next e he => exact absurd he (step_no_mismatch src lut hcov s e)
      next hp => rfl
    · rfl

set_option maxRecDepth 100000 in
/-- Claim C6 witness: for `"[]"` with its resolved table `[(0,1)]`, a run
from the all-zero initial state reports no `MismatchedBrackets`. -/
theorem execution_never_mismatched_witness :
    (runFuel ['[', ']'] [(0, 1)] 5 (initState [])).isMismatch = false :=
  execution_never_mismatched ['[', ']'] [(0, 1)] (by decide) 5 (initState [])
